import Mathlib

set_option maxRecDepth 8000

/-!
Verification of the predictive-retention pipeline
(`predictive_retention/model.py`, `feature_engineering.py`,
`termination_analysis.py`) against its natural-language specification.

Machine floats are modelled by exact rationals; the special float values
NaN and ±inf produced by pandas/numpy are modelled explicitly by the
`PFloat` type where the code can produce them.
-/

namespace ThaiTalent

/-! ## Evaluation metrics (`model.py`, `get_evaluation_metrics`) -/

/-- Metrics dictionary returned by `get_evaluation_metrics`:
binary f1 / recall / precision for the positive class, plus macro-averaged F1
(`macF1` models the dictionary key `macro_f1`). -/
structure Metrics where
  f1 : ℚ
  recl : ℚ
  prec : ℚ
  macF1 : ℚ
deriving DecidableEq

/-- sklearn metric convention: a zero denominator yields 0
(`zero_division` default behaviour of `f1_score` / `recall_score` /
`precision_score`). -/
def safeDiv (a b : ℚ) : ℚ := if b = 0 then 0 else a / b

/-- A labelled prediction list: each element is (true label, predicted label). -/
abbrev LabelledPreds := List (Bool × Bool)

def tpOf (l : LabelledPreds) : ℕ := (l.filter (fun p => p.1 && p.2)).length

def fpOf (l : LabelledPreds) : ℕ := (l.filter (fun p => !p.1 && p.2)).length

def fnOf (l : LabelledPreds) : ℕ := (l.filter (fun p => p.1 && !p.2)).length

def tnOf (l : LabelledPreds) : ℕ := (l.filter (fun p => !p.1 && !p.2)).length

/-- F1 of the positive (`True`) class: 2·tp / (2·tp + fp + fn). -/
def f1Pos (l : LabelledPreds) : ℚ :=
  safeDiv (2 * tpOf l) (2 * tpOf l + fpOf l + fnOf l)

/-- F1 of the negative (`False`) class: 2·tn / (2·tn + fn + fp). -/
def f1Neg (l : LabelledPreds) : ℚ :=
  safeDiv (2 * tnOf l) (2 * tnOf l + fnOf l + fpOf l)

/-- Whether the label `True` occurs in `y_true ∪ y_pred`
(sklearn averages macro-F1 over the labels actually present). -/
def hasTrueLabel (l : LabelledPreds) : Bool := l.any (fun p => p.1 || p.2)

/-- Whether the label `False` occurs in `y_true ∪ y_pred`. -/
def hasFalseLabel (l : LabelledPreds) : Bool := l.any (fun p => !p.1 || !p.2)

/-- Macro-averaged F1: mean of the per-class F1 scores over the labels present. -/
def macF1Of (l : LabelledPreds) : ℚ :=
  match hasFalseLabel l, hasTrueLabel l with
  | true, true => (f1Pos l + f1Neg l) / 2
  | true, false => f1Neg l
  | false, true => f1Pos l
  | false, false => 0

/-- `get_evaluation_metrics(y_true, y_pred)` (`model.py` lines 158-164). -/
def get_evaluation_metrics (l : LabelledPreds) : Metrics :=
  { f1 := f1Pos l
    recl := safeDiv (tpOf l) (tpOf l + fnOf l)
    prec := safeDiv (tpOf l) (tpOf l + fpOf l)
    macF1 := macF1Of l }

/-! ## Threshold search (`model.py`, `find_optimal_threshold`) -/

/-- The scanned grid `np.arange(0.001, 0.5, 0.001)`: the 499 rationals
1/1000, 2/1000, …, 499/1000 (the numpy length is ceil((0.5-0.001)/0.001) = 499,
end point excluded). -/
def thresholdGrid : List ℚ := (List.range 499).map (fun i : ℕ => ((i : ℚ) + 1) / 1000)

/-- The metrics obtained at threshold `t`: predictions are `y_prob > t`
(strict), paired with the boolean true labels. -/
def evalAt (yTrue : List Bool) (yProb : List ℚ) (t : ℚ) : Metrics :=
  get_evaluation_metrics (yTrue.zip (yProb.map (fun p => decide (t < p))))

/-- `metrics[score_metric] > best_score_metric` where `best_score_metric`
starts at -inf (modelled by `none`, i.e. `best_metrics is None`). -/
def beatsBest (cur : Option Metrics) (s : ℚ) : Bool :=
  match cur with
  | none => true
  | some m => decide (m.macF1 < s)

/-- One iteration of the scan loop of `find_optimal_threshold`:
the running state is (optimal_threshold, best_metrics). -/
def threshStep (yTrue : List Bool) (yProb : List ℚ) (floor : ℚ)
    (st : ℚ × Option Metrics) (t : ℚ) : ℚ × Option Metrics :=
  let m := evalAt yTrue yProb t
  if beatsBest st.2 m.macF1 && decide (floor ≤ m.recl) then (t, some m) else st

/-- `find_optimal_threshold(model, X_test, y_test, 'macro_f1', recall_threshold)`
(`model.py` lines 167-183), with the model's probability vector on `X_test`
abstracted as `yProb` and the binarized labels as `yTrue`.
Initial state: `optimal_threshold = 0`, `best_metrics = None`. -/
def find_optimal_threshold (yTrue : List Bool) (yProb : List ℚ) (floor : ℚ) :
    ℚ × Option Metrics :=
  thresholdGrid.foldl (threshStep yTrue yProb floor) (0, none)

/-! Invariant of the scan loop. -/

/-- After scanning the ascending prefix `seen`, the state is either still the
initial one (no scanned threshold met the recall floor), or it records the
first scanned threshold attaining the maximal macro-F1 among those meeting
the floor. -/
def SearchInv (yTrue : List Bool) (yProb : List ℚ) (floor : ℚ)
    (seen : List ℚ) (st : ℚ × Option Metrics) : Prop :=
  (st.2 = none ∧ ∀ t ∈ seen, ¬ floor ≤ (evalAt yTrue yProb t).recl) ∨
  (st.2 = some (evalAt yTrue yProb st.1) ∧ st.1 ∈ seen ∧
    floor ≤ (evalAt yTrue yProb st.1).recl ∧
    (∀ t ∈ seen, floor ≤ (evalAt yTrue yProb t).recl →
      (evalAt yTrue yProb t).macF1 ≤ (evalAt yTrue yProb st.1).macF1) ∧
    (∀ t ∈ seen, floor ≤ (evalAt yTrue yProb t).recl →
      (evalAt yTrue yProb t).macF1 = (evalAt yTrue yProb st.1).macF1 → st.1 ≤ t))

lemma searchInv_step (yTrue : List Bool) (yProb : List ℚ) (floor : ℚ)
    (seen : List ℚ) (st : ℚ × Option Metrics) (t : ℚ)
    (hinv : SearchInv yTrue yProb floor seen st)
    (hlt : ∀ s ∈ seen, s < t) :
    SearchInv yTrue yProb floor (seen ++ [t]) (threshStep yTrue yProb floor st t) := by
  rcases hinv with ⟨hnone, hfail⟩ | ⟨hsome, hmem, hrec, hmax, hfirst⟩
  · by_cases hr : floor ≤ (evalAt yTrue yProb t).recl
    · have hif : threshStep yTrue yProb floor st t = (t, some (evalAt yTrue yProb t)) := by
        unfold threshStep beatsBest
        rw [hnone]
        simp [hr]
      rw [hif]
      right
      refine ⟨rfl, by simp, hr, ?_, ?_⟩
      · intro u hu hru
        rcases List.mem_append.mp hu with hu | hu
        · exact absurd hru (hfail u hu)
        · simp at hu
          subst hu
          exact le_refl _
      · intro u hu hru _
        rcases List.mem_append.mp hu with hu | hu
        · exact absurd hru (hfail u hu)
        · simp at hu
          subst hu
          exact le_refl _
    · have hif : threshStep yTrue yProb floor st t = st := by
        unfold threshStep
        simp [hr]
      rw [hif]
      left
      refine ⟨hnone, ?_⟩
      intro u hu
      rcases List.mem_append.mp hu with hu | hu
      · exact hfail u hu
      · simp at hu
        subst hu
        exact hr
  · by_cases hcond : (evalAt yTrue yProb st.1).macF1 < (evalAt yTrue yProb t).macF1 ∧
        floor ≤ (evalAt yTrue yProb t).recl
    · have hif : threshStep yTrue yProb floor st t = (t, some (evalAt yTrue yProb t)) := by
        unfold threshStep beatsBest
        rw [hsome]
        simp [hcond.1, hcond.2]
      rw [hif]
      right
      refine ⟨rfl, by simp, hcond.2, ?_, ?_⟩
      · intro u hu hru
        rcases List.mem_append.mp hu with hu | hu
        · exact le_trans (hmax u hu hru) (le_of_lt hcond.1)
        · simp at hu
          subst hu
          exact le_refl _
      · intro u hu hru hequ
        rcases List.mem_append.mp hu with hu | hu
        · exfalso
          have h1 := hmax u hu hru
          rw [hequ] at h1
          exact absurd hcond.1 (not_lt.mpr h1)
        · simp at hu
          subst hu
          exact le_refl _
    · have hif : threshStep yTrue yProb floor st t = st := by
        unfold threshStep beatsBest
        rw [hsome]
        rcases Decidable.em ((evalAt yTrue yProb st.1).macF1 < (evalAt yTrue yProb t).macF1)
          with hm | hm
        · rcases Decidable.em (floor ≤ (evalAt yTrue yProb t).recl) with hr | hr
          · exact absurd ⟨hm, hr⟩ hcond
          · simp [hr]
        · simp [hm]
      rw [hif]
      right
      refine ⟨hsome, List.mem_append.mpr (Or.inl hmem), hrec, ?_, ?_⟩
      · intro u hu hru
        rcases List.mem_append.mp hu with hu | hu
        · exact hmax u hu hru
        · simp at hu
          subst hu
          rcases Decidable.em
              ((evalAt yTrue yProb st.1).macF1 < (evalAt yTrue yProb u).macF1) with hm | hm
          · exact absurd ⟨hm, hru⟩ hcond
          · exact not_lt.mp hm
      · intro u hu hru hequ
        rcases List.mem_append.mp hu with hu | hu
        · exact hfirst u hu hru hequ
        · simp at hu
          subst hu
          exact le_of_lt (hlt st.1 hmem)

lemma searchInv_foldl (yTrue : List Bool) (yProb : List ℚ) (floor : ℚ) :
    ∀ (L : List ℚ) (seen : List ℚ) (st : ℚ × Option Metrics),
      SearchInv yTrue yProb floor seen st →
      (∀ s ∈ seen, ∀ t ∈ L, s < t) →
      List.Pairwise (· < ·) L →
      SearchInv yTrue yProb floor (seen ++ L)
        (L.foldl (threshStep yTrue yProb floor) st) := by
  intro L
  induction L with
  | nil =>
    intro seen st hinv _ _
    simpa using hinv
  | cons t L ih =>
    intro seen st hinv hlt hpw
    have hstep := searchInv_step yTrue yProb floor seen st t hinv
      (fun s hs => hlt s hs t (by simp))
    have hlt' : ∀ s ∈ seen ++ [t], ∀ u ∈ L, s < u := by
      intro s hs u hu
      rcases List.mem_append.mp hs with hs | hs
      · exact hlt s hs u (by simp [hu])
      · simp at hs
        subst hs
        exact (List.pairwise_cons.mp hpw).1 u hu
    have := ih (seen ++ [t]) (threshStep yTrue yProb floor st t) hstep hlt'
      (List.pairwise_cons.mp hpw).2
    simpa using this

lemma thresholdGrid_pairwise : List.Pairwise (· < ·) thresholdGrid := by
  unfold thresholdGrid
  refine (List.pairwise_map).mpr ?_
  refine (List.pairwise_lt_range 499).imp ?_
  intro a b hab
  have h : (a : ℚ) < b := by exact_mod_cast hab
  have h1000 : (0 : ℚ) < 1000 := by norm_num
  rw [div_lt_div_iff₀ h1000 h1000]
  nlinarith

lemma recall_nonneg (l : LabelledPreds) : 0 ≤ (get_evaluation_metrics l).recl := by
  unfold get_evaluation_metrics safeDiv
  simp only
  split
  · exact le_refl 0
  · positivity

/-- C1: for every labelled test vector and probability vector and recall
floor, provided some grid threshold meets the floor, the selected threshold
lies in the scanned grid 0.001 … 0.499, meets the floor, attains the maximal
macro-F1 among grid thresholds meeting the floor, and among macro-F1 ties it
is the smallest (first encountered in the ascending scan). -/
theorem find_optimal_threshold_first_argmax (yTrue : List Bool) (yProb : List ℚ)
    (floor : ℚ)
    (h : ∃ t ∈ thresholdGrid, floor ≤ (evalAt yTrue yProb t).recl) :
    (find_optimal_threshold yTrue yProb floor).1 ∈ thresholdGrid ∧
    (find_optimal_threshold yTrue yProb floor).2 =
      some (evalAt yTrue yProb (find_optimal_threshold yTrue yProb floor).1) ∧
    floor ≤ (evalAt yTrue yProb (find_optimal_threshold yTrue yProb floor).1).recl ∧
    (∀ t ∈ thresholdGrid, floor ≤ (evalAt yTrue yProb t).recl →
      (evalAt yTrue yProb t).macF1 ≤
        (evalAt yTrue yProb (find_optimal_threshold yTrue yProb floor).1).macF1) ∧
    (∀ t ∈ thresholdGrid, floor ≤ (evalAt yTrue yProb t).recl →
      (evalAt yTrue yProb t).macF1 =
        (evalAt yTrue yProb (find_optimal_threshold yTrue yProb floor).1).macF1 →
      (find_optimal_threshold yTrue yProb floor).1 ≤ t) := by
  have hinv0 : SearchInv yTrue yProb floor [] (0, none) := by
    left
    exact ⟨rfl, by simp⟩
  have hres := searchInv_foldl yTrue yProb floor thresholdGrid [] (0, none) hinv0
    (by simp) thresholdGrid_pairwise
  rw [List.nil_append] at hres
  rcases hres with ⟨_, hfail⟩ | ⟨hsome, hmem, hrec, hmax, hfirst⟩
  · rcases h with ⟨t, ht, hrt⟩
    exact absurd hrt (hfail t ht)
  · exact ⟨hmem, hsome, hrec, hmax, hfirst⟩

lemma one_over_1000_mem_grid : (1 : ℚ) / 1000 ∈ thresholdGrid := by
  unfold thresholdGrid
  refine List.mem_map.mpr ⟨0, by simp, by norm_num⟩

/-- Witness for C1 at the concrete input yTrue = [true], yProb = [1/2],
floor = 0 (the default `recall_threshold=0`, i.e. no floor). -/
theorem find_optimal_threshold_first_argmax_witness :
    (∃ t ∈ thresholdGrid, (0 : ℚ) ≤ (evalAt [true] [(1 : ℚ)/2] t).recl) ∧
    ((find_optimal_threshold [true] [(1 : ℚ)/2] 0).1 ∈ thresholdGrid ∧
    (find_optimal_threshold [true] [(1 : ℚ)/2] 0).2 =
      some (evalAt [true] [(1 : ℚ)/2] (find_optimal_threshold [true] [(1 : ℚ)/2] 0).1) ∧
    (0 : ℚ) ≤ (evalAt [true] [(1 : ℚ)/2] (find_optimal_threshold [true] [(1 : ℚ)/2] 0).1).recl ∧
    (∀ t ∈ thresholdGrid, (0 : ℚ) ≤ (evalAt [true] [(1 : ℚ)/2] t).recl →
      (evalAt [true] [(1 : ℚ)/2] t).macF1 ≤
        (evalAt [true] [(1 : ℚ)/2] (find_optimal_threshold [true] [(1 : ℚ)/2] 0).1).macF1) ∧
    (∀ t ∈ thresholdGrid, (0 : ℚ) ≤ (evalAt [true] [(1 : ℚ)/2] t).recl →
      (evalAt [true] [(1 : ℚ)/2] t).macF1 =
        (evalAt [true] [(1 : ℚ)/2] (find_optimal_threshold [true] [(1 : ℚ)/2] 0).1).macF1 →
      (find_optimal_threshold [true] [(1 : ℚ)/2] 0).1 ≤ t)) := by
  have hex : ∃ t ∈ thresholdGrid, (0 : ℚ) ≤ (evalAt [true] [(1 : ℚ)/2] t).recl :=
    ⟨1/1000, one_over_1000_mem_grid, recall_nonneg _⟩
  exact ⟨hex, find_optimal_threshold_first_argmax [true] [(1 : ℚ)/2] 0 hex⟩

/-! ## Failure path of the threshold search (claim C3) -/

lemma foldl_threshStep_no_pass (yTrue : List Bool) (yProb : List ℚ) (floor : ℚ) :
    ∀ (L : List ℚ) (st : ℚ × Option Metrics),
      (∀ t ∈ L, ¬ floor ≤ (evalAt yTrue yProb t).recl) →
      L.foldl (threshStep yTrue yProb floor) st = st := by
  intro L
  induction L with
  | nil =>
    intro st _
    rfl
  | cons t L ih =>
    intro st h
    have hstep : threshStep yTrue yProb floor st t = st := by
      unfold threshStep
      simp [h t (by simp)]
    rw [List.foldl_cons, hstep]
    exact ih st (fun u hu => h u (by simp [hu]))

/-- When no scanned threshold meets the recall floor, the loop of
`find_optimal_threshold` never updates its state, so the function returns
its initial values `optimal_threshold = 0`, `best_metrics = None` —
it does not raise any exception. -/
lemma find_optimal_threshold_no_pass (yTrue : List Bool) (yProb : List ℚ) (floor : ℚ)
    (h : ∀ t ∈ thresholdGrid, ¬ floor ≤ (evalAt yTrue yProb t).recl) :
    find_optimal_threshold yTrue yProb floor = (0, none) := by
  unfold find_optimal_threshold
  exact foldl_threshStep_no_pass yTrue yProb floor thresholdGrid (0, none) h

/-- The candidate-selection loop of `finetune_model` (`model.py` lines 98-113),
specialised to its actual single candidate feature set.  The running best is
initialised to `best_score_metric = -inf`, `best_model = None`,
`optimal_threshold = 0`; the candidate's threshold and metrics come from
`find_optimal_threshold`, and the candidate is kept only when
`metrics is not None and metrics[score] > -inf and metrics['recall'] >= floor`. -/
def finetuneSelect {α : Type} (floor : ℚ) (model : α)
    (yTrue : List Bool) (yProb : List ℚ) : Option α × ℚ × Option Metrics :=
  match find_optimal_threshold yTrue yProb floor with
  | (_, none) => (none, 0, none)
  | (thr, some m) => if floor ≤ m.recl then (some model, thr, some m) else (none, 0, none)

/-- At the input yTrue = [true], yProb = [1/2000], recall floor 1/2, no grid
threshold reaches the floor: every grid threshold is ≥ 1/1000 > 1/2000, so the
single positive instance is always predicted negative and recall is 0. -/
lemma no_pass_example :
    ∀ t ∈ thresholdGrid, ¬ (1 : ℚ)/2 ≤ (evalAt [true] [(1 : ℚ)/2000] t).recl := by
  intro t ht
  have hge : (1 : ℚ)/1000 ≤ t := by
    unfold thresholdGrid at ht
    rcases List.mem_map.mp ht with ⟨i, _, rfl⟩
    have : (0 : ℚ) ≤ (i : ℚ) := by positivity
    rw [div_le_div_iff₀ (by norm_num) (by norm_num)]
    linarith
  have hpred : (decide (t < (1 : ℚ)/2000)) = false := by
    simp only [decide_eq_false_iff_not, not_lt]
    linarith
  have heval : evalAt [true] [(1 : ℚ)/2000] t =
      get_evaluation_metrics [(true, decide (t < (1 : ℚ)/2000))] := rfl
  rw [heval, hpred]
  have hrecl : (get_evaluation_metrics [(true, false)]).recl = 0 := by
    simp [get_evaluation_metrics, tpOf, fnOf, safeDiv]
  rw [hrecl]
  norm_num

/-- C3 counterexample: at yTrue = [true], yProb = [1/2000], recall floor 1/2,
no grid threshold satisfies the floor, yet `find_optimal_threshold` returns
normally with `(0, None)` and the `finetune_model` selection loop returns no
model — no `TrainingFailure` (no exception of any kind) is raised; the code
contains no such exception class. -/
theorem training_failure_counterexample :
    find_optimal_threshold [true] [(1 : ℚ)/2000] ((1 : ℚ)/2) = (0, none) ∧
    finetuneSelect ((1 : ℚ)/2) () [true] [(1 : ℚ)/2000] = (none, 0, none) := by
  have h1 : find_optimal_threshold [true] [(1 : ℚ)/2000] ((1 : ℚ)/2) = (0, none) :=
    find_optimal_threshold_no_pass _ _ _ no_pass_example
  refine ⟨h1, ?_⟩
  unfold finetuneSelect
  rw [h1]

/-- C3 (amended): if no threshold in the scanned grid satisfies the recall
floor, `find_optimal_threshold` silently returns threshold 0 with
`best_metrics = None`, and the selection loop of `finetune_model` returns no
model (`None`) with threshold 0 and no metrics; no `TrainingFailure` error is
raised (the code defines no such error). -/
theorem no_threshold_meets_floor_returns_none {α : Type} (model : α)
    (yTrue : List Bool) (yProb : List ℚ) (floor : ℚ)
    (h : ∀ t ∈ thresholdGrid, ¬ floor ≤ (evalAt yTrue yProb t).recl) :
    find_optimal_threshold yTrue yProb floor = (0, none) ∧
    finetuneSelect floor model yTrue yProb = (none, 0, none) := by
  have h1 := find_optimal_threshold_no_pass yTrue yProb floor h
  refine ⟨h1, ?_⟩
  unfold finetuneSelect
  rw [h1]

/-- Witness for the amended C3 at a concrete input. -/
theorem no_threshold_meets_floor_returns_none_witness :
    (∀ t ∈ thresholdGrid, ¬ (1 : ℚ)/2 ≤ (evalAt [true] [(1 : ℚ)/2000] t).recl) ∧
    (find_optimal_threshold [true] [(1 : ℚ)/2000] ((1 : ℚ)/2) = (0, none) ∧
     finetuneSelect ((1 : ℚ)/2) (0 : ℕ) [true] [(1 : ℚ)/2000] = (none, 0, none)) :=
  ⟨no_pass_example,
    no_threshold_meets_floor_returns_none 0 [true] [(1 : ℚ)/2000] ((1 : ℚ)/2) no_pass_example⟩

/-! ## Calendar dates and the 3-month label window
(`feature_engineering.py` lines 259-283) -/

/-- A Gregorian calendar date (pandas `Timestamp` at day granularity). -/
structure Date where
  year : ℕ
  month : ℕ
  day : ℕ
deriving DecidableEq

def isLeapYear (y : ℕ) : Bool :=
  y % 4 == 0 && (y % 100 != 0 || y % 400 == 0)

def daysInMonth (y m : ℕ) : ℕ :=
  if m = 2 then (if isLeapYear y then 29 else 28)
  else if m = 4 ∨ m = 6 ∨ m = 9 ∨ m = 11 then 30
  else 31

/-- Calendar validity of a date. -/
def ValidDate (d : Date) : Prop :=
  1 ≤ d.month ∧ d.month ≤ 12 ∧ 1 ≤ d.day ∧ d.day ≤ daysInMonth d.year d.month

instance (d : Date) : Decidable (ValidDate d) := by
  unfold ValidDate
  infer_instance

/-- Timestamp order (lexicographic on year, month, day). -/
def dateLe (a b : Date) : Prop :=
  a.year < b.year ∨ (a.year = b.year ∧
    (a.month < b.month ∨ (a.month = b.month ∧ a.day ≤ b.day)))

/-- Strict timestamp order. -/
def dateLt (a b : Date) : Prop :=
  a.year < b.year ∨ (a.year = b.year ∧
    (a.month < b.month ∨ (a.month = b.month ∧ a.day < b.day)))

instance (a b : Date) : Decidable (dateLe a b) := by
  unfold dateLe
  infer_instance

instance (a b : Date) : Decidable (dateLt a b) := by
  unfold dateLt
  infer_instance

/-- Absolute month index, in ℤ for convenient differences. -/
def monthIndexZ (d : Date) : ℤ := 12 * (d.year : ℤ) + d.month

/-- `pd.to_datetime(execution_date).replace(day=1)`. -/
def startOfMonth (d : Date) : Date := ⟨d.year, d.month, 1⟩

/-- `d + pd.DateOffset(months=n)`: advance n months, clamping the day to the
length of the target month. -/
def addMonths (d : Date) (n : ℕ) : Date :=
  let t := 12 * d.year + (d.month - 1) + n
  ⟨t / 12, t % 12 + 1, min d.day (daysInMonth (t / 12) (t % 12 + 1))⟩

/-- `d - pd.DateOffset(days=1)`. -/
def subOneDay (d : Date) : Date :=
  if 2 ≤ d.day then ⟨d.year, d.month, d.day - 1⟩
  else if 2 ≤ d.month then ⟨d.year, d.month - 1, daysInMonth d.year (d.month - 1)⟩
  else ⟨d.year - 1, 12, 31⟩

/-- `TIME_WINDOW_START = pd.to_datetime(execution_date).replace(day=1)`. -/
def windowStart (execDate : Date) : Date := startOfMonth execDate

/-- `TIME_WINDOW_END = TIME_WINDOW_START + DateOffset(months=3) - DateOffset(days=1)`. -/
def windowEnd (execDate : Date) : Date := subOneDay (addMonths (windowStart execDate) 3)

/-- The filter applied to termination movements:
`effective_date >= TIME_WINDOW_START  and  effective_date < TIME_WINDOW_END`
(note the strict `<` against the window end). -/
def inLabelWindow (execDate e : Date) : Prop :=
  dateLe (windowStart execDate) e ∧ dateLt e (windowEnd execDate)

instance (execDate e : Date) : Decidable (inLabelWindow execDate e) := by
  unfold inLabelWindow
  infer_instance

/-- dateutil `relativedelta(a, b)` for `b ≤ a`: the total number of whole
months between the dates, borrowing one month when `a.day < b.day`. -/
def wholeMonths (a b : Date) : ℤ :=
  monthIndexZ a - monthIndexZ b - (if a.day < b.day then 1 else 0)

/-- The `.months` attribute of the relativedelta (the part of the whole-month
total below a year). -/
def monthsAttr (a b : Date) : ℤ := wholeMonths a b % 12

/-- The label of one panel row (`feature_engineering.py` lines 259-283):
`evts` are the employee's termination-movement effective dates
(movement_type 1 or 2); events are filtered to the look-ahead window, the
merge produces one row per matching event of which the panel-level
`drop_duplicates(keep='last')` retains the last, `month_diff` is the
relativedelta `.months` between the event and the window start, the label is
`(3 - month_diff) / 3`, and a missing event yields `fillna(0)`. -/
def termination_value (execDate : Date) (evts : List Date) : ℚ :=
  match (evts.filter (fun e => decide (inLabelWindow execDate e))).getLast? with
  | none => 0
  | some e => (3 - (monthsAttr e (windowStart execDate) : ℚ)) / 3

lemma daysInMonth_pos (y m : ℕ) : 1 ≤ daysInMonth y m := by
  unfold daysInMonth
  split_ifs <;> norm_num

lemma monthIndexZ_mono (a b : Date) (ha : a.month ≤ 12) (hb : 1 ≤ b.month)
    (h : dateLe a b) : monthIndexZ a ≤ monthIndexZ b := by
  unfold monthIndexZ
  rcases h with h | ⟨hy, h | ⟨hm, _⟩⟩ <;> omega

lemma dateLe_of_dateLt (a b : Date) (h : dateLt a b) : dateLe a b := by
  unfold dateLt at h
  unfold dateLe
  rcases h with h | ⟨hy, h | ⟨hm, hd⟩⟩
  · exact Or.inl h
  · exact Or.inr ⟨hy, Or.inl h⟩
  · exact Or.inr ⟨hy, Or.inr ⟨hm, le_of_lt hd⟩⟩

lemma dateLt_irrefl (a : Date) : ¬ dateLt a a := by
  unfold dateLt
  omega

/-- Shape of the window end: month index exactly two months after the window
start, a valid month number, and a day ≥ 1. -/
lemma windowEnd_shape (execDate : Date) (hv : ValidDate execDate) :
    monthIndexZ (windowEnd execDate) = monthIndexZ (windowStart execDate) + 2 ∧
    1 ≤ (windowEnd execDate).month ∧ (windowEnd execDate).month ≤ 12 ∧
    1 ≤ (windowEnd execDate).day := by
  obtain ⟨hm1, hm2, _, _⟩ := hv
  have hdim : ∀ y m : ℕ, 1 ≤ daysInMonth y m := daysInMonth_pos
  unfold windowEnd windowStart startOfMonth addMonths
  simp only
  have hmin : ∀ y m : ℕ, min 1 (daysInMonth y m) = 1 := by
    intro y m
    have := hdim y m
    omega
  rw [hmin]
  unfold subOneDay
  simp only
  have h21 : ¬ (2 ≤ 1) := by norm_num
  rw [if_neg h21]
  by_cases hc : 2 ≤ (12 * execDate.year + (execDate.month - 1) + 3) % 12 + 1
  · rw [if_pos hc]
    unfold monthIndexZ
    simp only
    have := hdim ((12 * execDate.year + (execDate.month - 1) + 3) / 12)
      ((12 * execDate.year + (execDate.month - 1) + 3) % 12 + 1 - 1)
    omega
  · rw [if_neg hc]
    unfold monthIndexZ
    simp only
    omega

/-- Inside the window, the relativedelta `.months` of an event against the
window start is exactly the month-index difference, and that difference is
0, 1 or 2. -/
lemma window_monthsAttr (execDate e : Date) (hv : ValidDate execDate)
    (hve : ValidDate e) (hw : inLabelWindow execDate e) :
    monthsAttr e (windowStart execDate) =
      monthIndexZ e - monthIndexZ (windowStart execDate) ∧
    0 ≤ monthIndexZ e - monthIndexZ (windowStart execDate) ∧
    monthIndexZ e - monthIndexZ (windowStart execDate) ≤ 2 := by
  obtain ⟨hle, hlt⟩ := hw
  obtain ⟨hwe_mi, hwe_m1, hwe_m2, _⟩ := windowEnd_shape execDate hv
  obtain ⟨hm1, hm2, hd1, _⟩ := hv
  obtain ⟨hem1, hem2, hed1, _⟩ := hve
  have hlow : monthIndexZ (windowStart execDate) ≤ monthIndexZ e :=
    monthIndexZ_mono _ _ hm2 hem1 hle
  have hhigh : monthIndexZ e ≤ monthIndexZ (windowEnd execDate) :=
    monthIndexZ_mono _ _ hem2 hwe_m1 (dateLe_of_dateLt _ _ hlt)
  have hnoborrow : ¬ (e.day < (windowStart execDate).day) := by
    unfold windowStart startOfMonth
    simp only
    omega
  unfold monthsAttr wholeMonths
  rw [if_neg hnoborrow]
  refine ⟨?_, by omega, by omega⟩
  have hb : (0 : ℤ) ≤ monthIndexZ e - monthIndexZ (windowStart execDate) - 0 := by omega
  have hb2 : monthIndexZ e - monthIndexZ (windowStart execDate) - 0 < 12 := by omega
  omega

/-- C2: each generated panel row's `termination_value` is 0 when the employee
has no termination event in the 3-month look-ahead window, and otherwise
equals (3−k)/3 where k ∈ {0,1,2} is the number of whole months between the
first day of the execution month and the (retained) in-window termination
event; consequently the label only takes the values 0, 1, 2/3, 1/3. -/
theorem termination_value_decay (execDate : Date) (evts : List Date)
    (hv : ValidDate execDate) (hve : ∀ e ∈ evts, ValidDate e) :
    termination_value execDate evts ∈ ({0, 1, 2/3, 1/3} : Set ℚ) ∧
    ((∀ e ∈ evts, ¬ inLabelWindow execDate e) → termination_value execDate evts = 0) ∧
    ((∃ e ∈ evts, inLabelWindow execDate e) →
      ∃ e' ∈ evts, inLabelWindow execDate e' ∧
        monthsAttr e' (windowStart execDate) ∈ ({0, 1, 2} : Set ℤ) ∧
        termination_value execDate evts =
          (3 - (monthsAttr e' (windowStart execDate) : ℚ)) / 3) := by
  rcases hlast : (evts.filter (fun e => decide (inLabelWindow execDate e))).getLast?
    with _ | l
  · have hnil : evts.filter (fun e => decide (inLabelWindow execDate e)) = [] :=
      List.getLast?_eq_none_iff.mp hlast
    have hval : termination_value execDate evts = 0 := by
      unfold termination_value
      rw [hlast]
    refine ⟨by rw [hval]; simp, fun _ => hval, ?_⟩
    intro ⟨e, he, hwe⟩
    exfalso
    have : e ∈ evts.filter (fun e => decide (inLabelWindow execDate e)) :=
      List.mem_filter.mpr ⟨he, by simpa using hwe⟩
    rw [hnil] at this
    exact absurd this (List.not_mem_nil e)
  · obtain ⟨ys, hys⟩ := List.getLast?_eq_some_iff.mp hlast
    have hlmem : l ∈ evts.filter (fun e => decide (inLabelWindow execDate e)) := by
      rw [hys]
      simp
    obtain ⟨hle, hlw⟩ := List.mem_filter.mp hlmem
    have hlw' : inLabelWindow execDate l := by simpa using hlw
    obtain ⟨hattr, hlo, hhi⟩ := window_monthsAttr execDate l hv (hve l hle) hlw'
    have hval : termination_value execDate evts =
        (3 - (monthsAttr l (windowStart execDate) : ℚ)) / 3 := by
      unfold termination_value
      rw [hlast]
    have hattr3 : monthsAttr l (windowStart execDate) = 0 ∨
        monthsAttr l (windowStart execDate) = 1 ∨
        monthsAttr l (windowStart execDate) = 2 := by omega
    refine ⟨?_, ?_, ?_⟩
    · rw [hval]
      rcases hattr3 with h | h | h <;> rw [h] <;> norm_num
    · intro hnone
      exact absurd hlw' (hnone l hle)
    · intro _
      exact ⟨l, hle, hlw', by rcases hattr3 with h | h | h <;> simp [h], hval⟩

/-- Witness for C2 at execution date 2023-01-31 with a single termination
event on 2023-02-15 (one whole month after the window start 2023-01-01). -/
theorem termination_value_decay_witness :
    (ValidDate ⟨2023, 1, 31⟩ ∧ ∀ e ∈ [(⟨2023, 2, 15⟩ : Date)], ValidDate e) ∧
    (termination_value ⟨2023, 1, 31⟩ [⟨2023, 2, 15⟩] ∈ ({0, 1, 2/3, 1/3} : Set ℚ) ∧
    ((∀ e ∈ [(⟨2023, 2, 15⟩ : Date)], ¬ inLabelWindow ⟨2023, 1, 31⟩ e) →
      termination_value ⟨2023, 1, 31⟩ [⟨2023, 2, 15⟩] = 0) ∧
    ((∃ e ∈ [(⟨2023, 2, 15⟩ : Date)], inLabelWindow ⟨2023, 1, 31⟩ e) →
      ∃ e' ∈ [(⟨2023, 2, 15⟩ : Date)], inLabelWindow ⟨2023, 1, 31⟩ e' ∧
        monthsAttr e' (windowStart ⟨2023, 1, 31⟩) ∈ ({0, 1, 2} : Set ℤ) ∧
        termination_value ⟨2023, 1, 31⟩ [⟨2023, 2, 15⟩] =
          (3 - (monthsAttr e' (windowStart ⟨2023, 1, 31⟩) : ℚ)) / 3)) := by
  have h1 : ValidDate ⟨2023, 1, 31⟩ := by decide
  have h2 : ∀ e ∈ [(⟨2023, 2, 15⟩ : Date)], ValidDate e := by decide
  exact ⟨⟨h1, h2⟩, termination_value_decay ⟨2023, 1, 31⟩ [⟨2023, 2, 15⟩] h1 h2⟩

/-- C10: the look-ahead window is half-open at its end — a termination whose
effective date is exactly the last day of the window (window start + 3 months
− 1 day) is excluded by the strict `<` comparison and yields
`termination_value` 0, even though its whole-month offset is 2, which would
otherwise have produced the label 1/3. -/
theorem window_end_excluded (execDate : Date) (hv : ValidDate execDate) :
    ¬ inLabelWindow execDate (windowEnd execDate) ∧
    termination_value execDate [windowEnd execDate] = 0 ∧
    monthsAttr (windowEnd execDate) (windowStart execDate) = 2 ∧
    (3 - ((2 : ℤ) : ℚ)) / 3 = 1/3 := by
  have hnotin : ¬ inLabelWindow execDate (windowEnd execDate) := by
    intro h
    exact dateLt_irrefl (windowEnd execDate) h.2
  refine ⟨hnotin, ?_, ?_, by norm_num⟩
  · unfold termination_value
    have : ([windowEnd execDate].filter
        (fun e => decide (inLabelWindow execDate e))) = [] := by
      simp [hnotin]
    rw [this]
    rfl
  · obtain ⟨hwe_mi, _, _, hwe_d⟩ := windowEnd_shape execDate hv
    have hnoborrow : ¬ ((windowEnd execDate).day < (windowStart execDate).day) := by
      unfold windowStart startOfMonth
      simp only
      omega
    unfold monthsAttr wholeMonths
    rw [if_neg hnoborrow, hwe_mi]
    omega

/-- Witness for C10 at execution date 2023-01-31: the window is
[2023-01-01, 2023-03-31) and the event 2023-03-31 is excluded. -/
theorem window_end_excluded_witness :
    ValidDate ⟨2023, 1, 31⟩ ∧
    (¬ inLabelWindow ⟨2023, 1, 31⟩ (windowEnd ⟨2023, 1, 31⟩) ∧
    termination_value ⟨2023, 1, 31⟩ [windowEnd ⟨2023, 1, 31⟩] = 0 ∧
    monthsAttr (windowEnd ⟨2023, 1, 31⟩) (windowStart ⟨2023, 1, 31⟩) = 2 ∧
    (3 - ((2 : ℤ) : ℚ)) / 3 = 1/3) := by
  have h1 : ValidDate ⟨2023, 1, 31⟩ := by decide
  exact ⟨h1, window_end_excluded ⟨2023, 1, 31⟩ h1⟩

/-! ## Panel construction: active population and key uniqueness
(`feature_engineering.py` lines 66-79 and 294-298, claim C4) -/

/-- One row of the employee movement table. -/
structure Movement where
  employee_id : ℕ
  movement_type : ℕ
  effective_date : Date
deriving DecidableEq

/-- One roster row. -/
structure Employee where
  emp_id : ℕ
  hire_date : Date
deriving DecidableEq

/-- The key-carrying part of one generated panel row. -/
structure PanelRow where
  emp_id : ℕ
  execution_date : Date
deriving DecidableEq

/-- `df.drop_duplicates(subset=key, keep='last')`: keeps, in their original
order, exactly the rows that have no later row with the same key. -/
def dedupKeepLast {α κ : Type} [DecidableEq κ] (key : α → κ) : List α → List α
  | [] => []
  | x :: xs =>
    if xs.any (fun y => decide (key y = key x)) then dedupKeepLast key xs
    else x :: dedupKeepLast key xs

/-- Whether the employee has a termination movement (`movement_type` 1 =
voluntary, 2 = involuntary) effective on or before the execution date
(line 79 filters these employees out of the month's population). -/
def hasTerminationBefore (movs : List Movement) (eid : ℕ) (d : Date) : Bool :=
  movs.any (fun mv => decide (mv.employee_id = eid) &&
    (decide (mv.movement_type = 1) || decide (mv.movement_type = 2)) &&
    decide (dateLe mv.effective_date d))

/-- The rows contributed by one execution date (lines 69-79): roster rows
hired on or before the date, deduplicated per employee keeping the latest,
with already-terminated employees removed. -/
def monthRows (emps : List Employee) (movs : List Movement) (d : Date) :
    List PanelRow :=
  ((dedupKeepLast (fun e => e.emp_id)
      (emps.filter (fun e => decide (dateLe e.hire_date d)))).filter
    (fun e => ! hasTerminationBefore movs e.emp_id d)).map
    (fun e => ⟨e.emp_id, d⟩)

/-- `feature_engineering`'s panel (lines 66-67, 294-298): the per-month blocks
concatenated, then `drop_duplicates(subset=['emp_id','execution_date'],
keep='last')`. -/
def buildPanel (emps : List Employee) (movs : List Movement) (months : List Date) :
    List PanelRow :=
  dedupKeepLast (fun r => (r.emp_id, r.execution_date))
    (months.flatMap (fun d => monthRows emps movs d))

lemma mem_dedupKeepLast {α κ : Type} [DecidableEq κ] (key : α → κ)
    (l : List α) (x : α) (hx : x ∈ dedupKeepLast key l) : x ∈ l := by
  induction l with
  | nil => simpa [dedupKeepLast] using hx
  | cons a l ih =>
    unfold dedupKeepLast at hx
    split at hx
    · exact List.mem_cons_of_mem a (ih hx)
    · rcases List.mem_cons.mp hx with h | h
      · exact h ▸ List.mem_cons_self a l
      · exact List.mem_cons_of_mem a (ih h)

lemma dedupKeepLast_keys_nodup {α κ : Type} [DecidableEq κ] (key : α → κ)
    (l : List α) : ((dedupKeepLast key l).map key).Nodup := by
  induction l with
  | nil => simp [dedupKeepLast]
  | cons a l ih =>
    unfold dedupKeepLast
    split
    · exact ih
    · rename_i hany
      rw [List.map_cons]
      refine List.nodup_cons.mpr ⟨?_, ih⟩
      intro hmem
      rcases List.mem_map.mp hmem with ⟨y, hy, hkey⟩
      have hyl : y ∈ l := mem_dedupKeepLast key l y hy
      have hany' : (l.any (fun y => decide (key y = key a))) = false := by
        simpa using hany
      have := List.any_eq_false.mp hany' y hyl
      simp at this
      exact this hkey

lemma monthRows_facts (emps : List Employee) (movs : List Movement) (d : Date)
    (r : PanelRow) (hr : r ∈ monthRows emps movs d) :
    r.execution_date = d ∧ hasTerminationBefore movs r.emp_id d = false := by
  unfold monthRows at hr
  rcases List.mem_map.mp hr with ⟨e, he, hre⟩
  obtain ⟨_, hterm⟩ := List.mem_filter.mp he
  subst hre
  exact ⟨rfl, by simpa using hterm⟩

/-- C4: the generated panel contains no duplicate
(employee_id, execution_date) pairs, and every row's employee has no
termination movement (voluntary or involuntary) effective on or before the
row's execution date — so the employee was still active then, and in
particular their most recent movement before the execution date is not a
termination. -/
theorem panel_unique_and_active (emps : List Employee) (movs : List Movement)
    (months : List Date) :
    ((buildPanel emps movs months).map (fun r => (r.emp_id, r.execution_date))).Nodup ∧
    ∀ r ∈ buildPanel emps movs months, ∀ mv ∈ movs,
      mv.employee_id = r.emp_id → dateLe mv.effective_date r.execution_date →
      mv.movement_type ≠ 1 ∧ mv.movement_type ≠ 2 := by
  constructor
  · exact dedupKeepLast_keys_nodup _ _
  · intro r hr mv hmv heid hdate
    have hr' : r ∈ months.flatMap (fun d => monthRows emps movs d) :=
      mem_dedupKeepLast _ _ r hr
    rcases List.mem_flatMap.mp hr' with ⟨d, _, hrd⟩
    obtain ⟨hdate_eq, hterm⟩ := monthRows_facts emps movs d r hrd
    have := List.any_eq_false.mp hterm mv hmv
    simp only [Bool.and_eq_true, Bool.or_eq_true, decide_eq_true_eq, not_and, not_or] at this
    subst hdate_eq
    constructor
    · intro h1
      exact (this ⟨heid, Or.inl h1⟩) hdate
    · intro h2
      exact (this ⟨heid, Or.inr h2⟩) hdate

/-- Witness for C4 on a concrete two-employee, two-month instance where one
employee terminates between the months. -/
theorem panel_unique_and_active_witness :
    (((buildPanel
        [⟨1, ⟨2022, 1, 1⟩⟩, ⟨2, ⟨2022, 1, 1⟩⟩]
        [⟨1, 1, ⟨2023, 1, 10⟩⟩]
        [⟨2023, 1, 31⟩, ⟨2023, 2, 28⟩]).map
      (fun r => (r.emp_id, r.execution_date))).Nodup ∧
    ∀ r ∈ buildPanel
        [⟨1, ⟨2022, 1, 1⟩⟩, ⟨2, ⟨2022, 1, 1⟩⟩]
        [⟨1, 1, ⟨2023, 1, 10⟩⟩]
        [⟨2023, 1, 31⟩, ⟨2023, 2, 28⟩],
      ∀ mv ∈ [(⟨1, 1, ⟨2023, 1, 10⟩⟩ : Movement)],
      mv.employee_id = r.emp_id → dateLe mv.effective_date r.execution_date →
      mv.movement_type ≠ 1 ∧ mv.movement_type ≠ 2) :=
  panel_unique_and_active
    [⟨1, ⟨2022, 1, 1⟩⟩, ⟨2, ⟨2022, 1, 1⟩⟩]
    [⟨1, 1, ⟨2023, 1, 10⟩⟩]
    [⟨2023, 1, 31⟩, ⟨2023, 2, 28⟩]

/-! ## Cohort z-score normalization
(`feature_engineering.py` lines 14-15, claim C5) -/

/-- A pandas float value: NaN and signed infinity are modelled explicitly
(`inf true` is +inf), finite values exactly. -/
inductive PFloat where
  | nan : PFloat
  | inf : Bool → PFloat
  | val : ℚ → PFloat
deriving DecidableEq

/-- Division of a finite numerator by a pandas value: anything over NaN is
NaN; 0/0 is NaN; x/0 for x ≠ 0 is signed infinity; a finite numerator over
±inf is 0. -/
def pdivQ (a : ℚ) (s : PFloat) : PFloat :=
  match s with
  | .nan => .nan
  | .inf _ => .val 0
  | .val b => if b = 0 then (if a = 0 then .nan else .inf (decide (0 < a))) else .val (a / b)

/-- `.fillna(0)`: replaces NaN — and only NaN — by 0. -/
def fillna0 : PFloat → PFloat
  | .nan => .val 0
  | x => x

/-- Series mean. -/
def sampleMean (xs : List ℚ) : ℚ := xs.sum / xs.length

/-- pandas `Series.std()` (sample standard deviation, ddof = 1): NaN for
fewer than two values (0/0 in the variance); otherwise the square root of the
unbiased variance, with `sqrtFn` abstracting the (generally irrational) real
square root. -/
def sampleStd (sqrtFn : ℚ → ℚ) (xs : List ℚ) : PFloat :=
  if xs.length ≤ 1 then .nan
  else .val (sqrtFn (((xs.map (fun x => (x - sampleMean xs) ^ 2)).sum) /
    ((xs.length : ℚ) - 1)))

/-- The transform lambda `(x - x.mean()) / x.std()` applied to one member
value `x` of the cohort `xs`, followed by `.fillna(0)`. -/
def zScoreOf (sqrtFn : ℚ → ℚ) (xs : List ℚ) (x : ℚ) : PFloat :=
  fillna0 (pdivQ (x - sampleMean xs) (sampleStd sqrtFn xs))

/-- The cohort of the key `k` inside a keyed series. -/
def groupVals (rows : List (ℕ × ℚ)) (k : ℕ) : List ℚ :=
  (rows.filter (fun r => decide (r.1 = k))).map (fun r => r.2)

/-- `calculate_z_score(dataframe, group_column, value_column)`
(`feature_engineering.py` lines 14-15):
`groupby(group)[col].transform(lambda x: (x - x.mean()) / x.std()).fillna(0)`. -/
def calculate_z_score (sqrtFn : ℚ → ℚ) (rows : List (ℕ × ℚ)) : List PFloat :=
  rows.map (fun r => zScoreOf sqrtFn (groupVals rows r.1) r.2)

lemma zScoreOf_degenerate (sqrtFn : ℚ → ℚ) (h0 : sqrtFn 0 = 0)
    (xs : List ℚ) (x : ℚ) (hx : x ∈ xs)
    (hdeg : xs.length = 1 ∨ ∀ a ∈ xs, ∀ b ∈ xs, a = b) :
    zScoreOf sqrtFn xs x = PFloat.val 0 := by
  by_cases hlen : xs.length ≤ 1
  · unfold zScoreOf sampleStd
    rw [if_pos hlen]
    rfl
  · have hall : ∀ a ∈ xs, ∀ b ∈ xs, a = b := by
      rcases hdeg with h | h
      · exact absurd (le_of_eq h) hlen
      · exact h
    have hrep : ∀ a ∈ xs, a = x := fun a ha => hall a ha x hx
    have hxs : xs = List.replicate xs.length x := List.eq_replicate_of_mem hrep
    have hn : (0 : ℚ) < (xs.length : ℚ) := by
      have : 0 < xs.length := by omega
      exact_mod_cast this
    have hmean : sampleMean xs = x := by
      unfold sampleMean
      rw [hxs]
      rw [List.sum_replicate, List.length_replicate]
      rw [nsmul_eq_mul]
      field_simp
    have hvar : ((xs.map (fun a => (a - sampleMean xs) ^ 2)).sum) = 0 := by
      rw [hmean]
      conv_lhs => rw [hxs]
      rw [List.map_replicate]
      rw [List.sum_replicate]
      simp
    have hstd : sampleStd sqrtFn xs = .val 0 := by
      unfold sampleStd
      rw [if_neg hlen, hvar]
      rw [zero_div, h0]
    unfold zScoreOf
    rw [hstd, hmean, sub_self]
    simp [pdivQ, fillna0]

/-- C5: the cohort z-score of any member of a size-one cohort or of a
zero-variance (all values equal) cohort is exactly the finite value 0 —
never NaN, infinity, or a division error: the NaN produced by std = NaN
(size one) or by 0/0 (zero variance) is replaced by `fillna(0)`, and the
±inf branch of the division is unreachable because a zero standard deviation
forces a zero numerator. -/
theorem cohort_zscore_degenerate (sqrtFn : ℚ → ℚ) (h0 : sqrtFn 0 = 0)
    (rows : List (ℕ × ℚ)) (i : ℕ) (r : ℕ × ℚ) (hr : rows[i]? = some r)
    (hdeg : (groupVals rows r.1).length = 1 ∨
      ∀ a ∈ groupVals rows r.1, ∀ b ∈ groupVals rows r.1, a = b) :
    (calculate_z_score sqrtFn rows)[i]? = some (PFloat.val 0) := by
  have hmem : r ∈ rows := List.getElem?_mem hr
  have hxg : r.2 ∈ groupVals rows r.1 := by
    unfold groupVals
    exact List.mem_map.mpr ⟨r, List.mem_filter.mpr ⟨hmem, by simp⟩, rfl⟩
  unfold calculate_z_score
  rw [List.getElem?_map, hr, Option.map_some']
  rw [zScoreOf_degenerate sqrtFn h0 _ _ hxg hdeg]

/-- Witness for C5: a single row forms a size-one cohort and is normalized
to exactly 0. -/
theorem cohort_zscore_degenerate_witness :
    ((fun _ : ℚ => (0 : ℚ)) 0 = 0 ∧
      ([((0 : ℕ), (5 : ℚ))])[0]? = some (0, 5) ∧
      (groupVals [((0 : ℕ), (5 : ℚ))] 0).length = 1) ∧
    (calculate_z_score (fun _ : ℚ => (0 : ℚ)) [((0 : ℕ), (5 : ℚ))])[0]? =
      some (PFloat.val 0) := by
  have hlen : (groupVals [((0 : ℕ), (5 : ℚ))] 0).length = 1 := rfl
  exact ⟨⟨rfl, rfl, hlen⟩,
    cohort_zscore_degenerate (fun _ => 0) rfl [((0 : ℕ), (5 : ℚ))] 0 (0, 5) rfl
      (Or.inl hlen)⟩

/-! ## Attribution aggregation (`termination_analysis.py`, claims C6 and C7) -/

/-- Descending comparison on (feature, value) pairs used by
`sort_values(ascending=False)`: a precedes b when b's value is ≤ a's. -/
def valGE (a b : String × ℚ) : Prop := b.2 ≤ a.2

instance : DecidableRel valGE := fun a b => inferInstanceAs (Decidable (b.2 ≤ a.2))

instance : IsTotal (String × ℚ) valGE := ⟨fun a b => le_total b.2 a.2⟩

instance : IsTrans (String × ℚ) valGE :=
  ⟨fun _ _ _ h1 h2 => le_trans h2 h1⟩

/-- `sort_values(ascending=False)` on (feature, value) pairs (any sorting
algorithm realises it; insertion sort is used as the model). -/
def sortDescByVal (l : List (String × ℚ)) : List (String × ℚ) :=
  l.insertionSort valGE

lemma sorted_sortDescByVal (l : List (String × ℚ)) :
    List.Sorted valGE (sortDescByVal l) := List.sorted_insertionSort valGE l

lemma perm_sortDescByVal (l : List (String × ℚ)) :
    (sortDescByVal l).Perm l := List.perm_insertionSort valGE l

/-- Column mean of the per-employee contribution matrix
(`all_shap_df.mean(axis=0, skipna=True)`). -/
def colMean (shapRows : List (List ℚ)) (j : ℕ) : ℚ :=
  ((shapRows.map (fun row => row.getD j 0)).sum) / shapRows.length

/-- The (feature, mean contribution) pairs, one per feature column. -/
def featureMeans (features : List String) (shapRows : List (List ℚ)) :
    List (String × ℚ) :=
  (List.range features.length).map (fun j => (features.getD j "", colMean shapRows j))

/-- Map over a finite pandas value; NaN and ±inf propagate unchanged
(multiplying ±inf by the positive 100 and rounding ±inf keep the infinity). -/
def pmap (f : ℚ → ℚ) : PFloat → PFloat
  | .val q => .val (f q)
  | x => x

/-- Python/numpy round-half-to-even of a rational to an integer. -/
def roundHalfEven (q : ℚ) : ℤ :=
  if q - ⌊q⌋ < 1/2 then ⌊q⌋
  else if 1/2 < q - ⌊q⌋ then ⌊q⌋ + 1
  else if ⌊q⌋ % 2 = 0 then ⌊q⌋ else ⌊q⌋ + 1

/-- `round(x, 2)`: round half to even at two decimal places. -/
def round2 (q : ℚ) : ℚ := (roundHalfEven (q * 100) : ℚ) / 100

/-- Company-wide top drivers (`termination_analysis.py` lines 107-113):
the column means sorted descending by raw SIGNED value
(`sort_values(ascending=False)`), `head(5)` kept, and each kept value
turned into `round((impact_value / total_impact) * 100, 2)` where
`total_impact` is the signed sum of the kept values (a zero total gives the
pandas NaN/±inf, modelled by `pdivQ`).  Output: (feature, impact_value,
impact_percentage). -/
def companyTopDrivers (features : List String) (shapRows : List (List ℚ)) :
    List (String × ℚ × PFloat) :=
  ((sortDescByVal (featureMeans features shapRows)).take 5).map
    (fun p => (p.1, p.2, pmap round2 (pmap (fun q => q * 100)
      (pdivQ p.2 (PFloat.val ((((sortDescByVal (featureMeans features shapRows)).take 5).map
        (fun p => p.2)).sum))))))

lemma roundHalfEven_close (q : ℚ) : |(roundHalfEven q : ℚ) - q| ≤ 1/2 := by
  have hfl : (⌊q⌋ : ℚ) ≤ q := Int.floor_le q
  have hfu : q < ⌊q⌋ + 1 := Int.lt_floor_add_one q
  unfold roundHalfEven
  split_ifs with h1 h2 h3 <;> rw [abs_le] <;> push_cast <;> constructor <;> linarith

lemma round2_close (q : ℚ) : |round2 q - q| ≤ 1/200 := by
  have h := roundHalfEven_close (q * 100)
  unfold round2
  have heq : (roundHalfEven (q * 100) : ℚ) / 100 - q =
      ((roundHalfEven (q * 100) : ℚ) - q * 100) / 100 := by ring
  rw [heq, abs_div]
  have h100 : |(100 : ℚ)| = 100 := by norm_num
  rw [h100]
  linarith

lemma abs_sum_sub_sum_le {α : Type} (l : List α) (f g : α → ℚ) (c : ℚ)
    (h : ∀ x ∈ l, |f x - g x| ≤ c) :
    |(l.map f).sum - (l.map g).sum| ≤ l.length * c := by
  induction l with
  | nil => simp
  | cons a l ih =>
    have ha := h a (by simp)
    have hl := ih (fun x hx => h x (by simp [hx]))
    simp only [List.map_cons, List.sum_cons, List.length_cons]
    have htri : |f a + (l.map f).sum - (g a + (l.map g).sum)| ≤
        |f a - g a| + |(l.map f).sum - (l.map g).sum| := by
      have habs := abs_add (f a - g a) ((l.map f).sum - (l.map g).sum)
      have heq : f a + (l.map f).sum - (g a + (l.map g).sum) =
          (f a - g a) + ((l.map f).sum - (l.map g).sum) := by ring
      rw [heq]
      exact habs
    push_cast
    linarith

/-- Renormalizing a list of values by their (nonzero) sum and scaling to 100
gives percentages summing to exactly 100. -/
lemma sum_pct {α : Type} (l : List α) (f : α → ℚ) (total : ℚ)
    (htot : (l.map f).sum = total) (hne : total ≠ 0) :
    (l.map (fun p => f p / total * 100)).sum = 100 := by
  have h1 : (l.map (fun p => f p / total * 100)) = l.map (fun p => f p * (100 / total)) := by
    apply List.map_congr_left
    intro p _
    ring
  rw [h1, List.sum_map_mul_right, htot]
  field_simp

lemma map_fst_pair {β : Type} (l : List (String × ℚ)) (f : (String × ℚ) → β) :
    ((l.map (fun p => (p.1, p.2, f p))).map (fun x : String × ℚ × β => (x.1, x.2.1))) = l := by
  induction l with
  | nil => rfl
  | cons a l ih => simp [ih]

/-- C6 counterexample: with six features whose mean contributions are
-10, 3, 2, 1, 1/2, 1/10, the feature "a" has the strictly largest magnitude
|−10| yet is NOT among the five selected company-wide top drivers, because the
code ranks by raw signed value, not magnitude. -/
theorem company_top_drivers_counterexample :
    ("a", (-10 : ℚ)) ∈ featureMeans ["a","b","c","d","e","f"]
      [[-10, 3, 2, 1, 1/2, 1/10]] ∧
    ((featureMeans ["a","b","c","d","e","f"] [[-10, 3, 2, 1, 1/2, 1/10]]).all
      (fun p => p.1 = "a" || decide (|p.2| < |(-10 : ℚ)|)) = true) ∧
    (companyTopDrivers ["a","b","c","d","e","f"]
      [[-10, 3, 2, 1, 1/2, 1/10]]).map (fun x => x.1) = ["b","c","d","e","f"] := by
  have hfm : featureMeans ["a","b","c","d","e","f"] [[-10, 3, 2, 1, 1/2, 1/10]] =
      [("a", -10), ("b", 3), ("c", 2), ("d", 1), ("e", 1/2), ("f", 1/10)] := by
    norm_num [featureMeans, colMean, List.range_succ]
  have hsort : sortDescByVal
      [("a", (-10 : ℚ)), ("b", 3), ("c", 2), ("d", 1), ("e", 1/2), ("f", 1/10)] =
      [("b", 3), ("c", 2), ("d", 1), ("e", 1/2), ("f", 1/10), ("a", -10)] := by
    norm_num [sortDescByVal, List.insertionSort, List.orderedInsert, valGE]
  refine ⟨by rw [hfm]; simp, ?_, ?_⟩
  · rw [hfm]
    norm_num [abs]
  · unfold companyTopDrivers
    rw [hfm, hsort]
    norm_num

/-- C6 (amended): the company-wide top drivers are computed by averaging the
raw signed contributions, ranking features descending by the SIGNED averaged
value (not its magnitude), keeping the first 5, and renormalizing the kept
values by their signed sum into percentages — every kept feature's signed mean
dominates every excluded feature's, and whenever the kept sum is nonzero the
raw (pre-rounding) percentages sum to 100. -/
theorem company_top_drivers_signed (features : List String) (shapRows : List (List ℚ)) :
    (sortDescByVal (featureMeans features shapRows)).Perm
      (featureMeans features shapRows) ∧
    List.Sorted valGE (sortDescByVal (featureMeans features shapRows)) ∧
    (companyTopDrivers features shapRows).map (fun x => (x.1, x.2.1)) =
      (sortDescByVal (featureMeans features shapRows)).take 5 ∧
    (∀ p ∈ (sortDescByVal (featureMeans features shapRows)).take 5,
      ∀ q ∈ (sortDescByVal (featureMeans features shapRows)).drop 5, q.2 ≤ p.2) ∧
    (((((sortDescByVal (featureMeans features shapRows)).take 5).map
        (fun p => p.2)).sum ≠ 0) →
      ((((sortDescByVal (featureMeans features shapRows)).take 5).map
        (fun p => p.2 / ((((sortDescByVal (featureMeans features shapRows)).take 5).map
          (fun p => p.2)).sum) * 100)).sum = 100)) := by
  refine ⟨perm_sortDescByVal _, sorted_sortDescByVal _, ?_, ?_, ?_⟩
  · unfold companyTopDrivers
    exact map_fst_pair _ _
  · intro p hp q hq
    have hsorted : List.Pairwise valGE (sortDescByVal (featureMeans features shapRows)) :=
      sorted_sortDescByVal (featureMeans features shapRows)
    rw [← List.take_append_drop 5 (sortDescByVal (featureMeans features shapRows))]
      at hsorted
    exact (List.pairwise_append.mp hsorted).2.2 p hp q hq
  · intro hne
    exact sum_pct _ _ _ rfl hne

/-- Witness for the amended C6 at a concrete three-feature input. -/
theorem company_top_drivers_signed_witness :
    (sortDescByVal (featureMeans ["a","b","c"] [[4, 2, 1]])).Perm
      (featureMeans ["a","b","c"] [[4, 2, 1]]) ∧
    List.Sorted valGE (sortDescByVal (featureMeans ["a","b","c"] [[4, 2, 1]])) ∧
    (companyTopDrivers ["a","b","c"] [[4, 2, 1]]).map (fun x => (x.1, x.2.1)) =
      (sortDescByVal (featureMeans ["a","b","c"] [[4, 2, 1]])).take 5 ∧
    (∀ p ∈ (sortDescByVal (featureMeans ["a","b","c"] [[4, 2, 1]])).take 5,
      ∀ q ∈ (sortDescByVal (featureMeans ["a","b","c"] [[4, 2, 1]])).drop 5, q.2 ≤ p.2) ∧
    (((((sortDescByVal (featureMeans ["a","b","c"] [[4, 2, 1]])).take 5).map
        (fun p => p.2)).sum ≠ 0) →
      ((((sortDescByVal (featureMeans ["a","b","c"] [[4, 2, 1]])).take 5).map
        (fun p => p.2 / ((((sortDescByVal (featureMeans ["a","b","c"] [[4, 2, 1]])).take 5).map
          (fun p => p.2)).sum) * 100)).sum = 100)) :=
  company_top_drivers_signed ["a","b","c"] [[4, 2, 1]]

/-- Per-employee explanation (`termination_analysis.py` lines 194-210):
keep the features whose absolute contribution strictly exceeds the employee's
mean absolute contribution, set `impact_percentage` to
`round((abs / total_abs) * 100, 2)` over the kept subset, and sort descending
by `impact_percentage`.  (The division is only evaluated on kept rows, whose
total is then nonzero.) -/
def employeeImpactFactors (contribs : List (String × ℚ)) : List (String × ℚ) :=
  let absMean := ((contribs.map (fun p => |p.2|)).sum) / contribs.length
  let kept := contribs.filter (fun p => decide (absMean < |p.2|))
  let total := (kept.map (fun p => |p.2|)).sum
  sortDescByVal (kept.map (fun p => (p.1, round2 (|p.2| / total * 100))))

/-- C7 counterexample: an employee whose single feature has contribution 1
(so every absolute contribution equals the mean absolute contribution)
retains no feature at all, and the impact percentages sum to 0, not 100. -/
theorem employee_impact_sum_counterexample :
    employeeImpactFactors [("a", (1 : ℚ))] = [] ∧
    (((employeeImpactFactors [("a", (1 : ℚ))]).map (fun p => p.2)).sum) = 0 := by
  have h : employeeImpactFactors [("a", (1 : ℚ))] = [] := by
    unfold employeeImpactFactors
    norm_num [sortDescByVal, List.insertionSort]
  exact ⟨h, by rw [h]; rfl⟩

/-- C7 (amended): provided at least one feature's absolute contribution
strictly exceeds the employee's mean absolute contribution (i.e. the absolute
contributions are not all equal — otherwise the retained set is empty and the
percentages sum to 0), the explanation retains exactly the above-mean
features, the raw renormalized percentages over the retained set sum to
exactly 100 (the rounded displayed ones sum to 100 within 1/200 per retained
feature), and the output is sorted descending by impact percentage. -/
theorem employee_impact_factors_props (contribs : List (String × ℚ))
    (hex : ∃ p ∈ contribs,
      ((contribs.map (fun q => |q.2|)).sum) / contribs.length < |p.2|) :
    ∃ kept total,
      kept = contribs.filter (fun p =>
        decide (((contribs.map (fun q => |q.2|)).sum) / contribs.length < |p.2|)) ∧
      total = (kept.map (fun p => |p.2|)).sum ∧
      employeeImpactFactors contribs =
        sortDescByVal (kept.map (fun p => (p.1, round2 (|p.2| / total * 100)))) ∧
      kept ≠ [] ∧ 0 < total ∧
      (kept.map (fun p => |p.2| / total * 100)).sum = 100 ∧
      List.Sorted valGE (employeeImpactFactors contribs) ∧
      |(((employeeImpactFactors contribs).map (fun p => p.2)).sum) - 100| ≤
        kept.length * (1/200) := by
  obtain ⟨p0, hp0, hp0gt⟩ := hex
  refine ⟨contribs.filter (fun p =>
      decide (((contribs.map (fun q => |q.2|)).sum) / contribs.length < |p.2|)),
    _, rfl, rfl, rfl, ?_, ?_, ?_, ?_, ?_⟩
  · exact List.ne_nil_of_mem (List.mem_filter.mpr ⟨hp0, decide_eq_true hp0gt⟩)
  · apply List.sum_pos
    · intro x hx
      rcases List.mem_map.mp hx with ⟨p, hpk, rfl⟩
      have hdec := (List.mem_filter.mp hpk).2
      have hlt := of_decide_eq_true hdec
      have hnn : 0 ≤ ((contribs.map (fun q => |q.2|)).sum) / contribs.length := by
        apply div_nonneg
        · apply List.sum_nonneg
          intro y hy
          rcases List.mem_map.mp hy with ⟨q, _, rfl⟩
          exact abs_nonneg _
        · positivity
      linarith
    · intro hnil
      rw [List.map_eq_nil_iff] at hnil
      exact (List.ne_nil_of_mem (List.mem_filter.mpr ⟨hp0, decide_eq_true hp0gt⟩)) hnil
  · apply sum_pct _ _ _ rfl
    apply ne_of_gt
    apply List.sum_pos
    · intro x hx
      rcases List.mem_map.mp hx with ⟨p, hpk, rfl⟩
      have hlt := of_decide_eq_true (List.mem_filter.mp hpk).2
      have hnn : 0 ≤ ((contribs.map (fun q => |q.2|)).sum) / contribs.length := by
        apply div_nonneg
        · apply List.sum_nonneg
          intro y hy
          rcases List.mem_map.mp hy with ⟨q, _, rfl⟩
          exact abs_nonneg _
        · positivity
      linarith
    · intro hnil
      rw [List.map_eq_nil_iff] at hnil
      exact (List.ne_nil_of_mem (List.mem_filter.mpr ⟨hp0, decide_eq_true hp0gt⟩)) hnil
  · exact sorted_sortDescByVal _
  · have heq : employeeImpactFactors contribs =
        sortDescByVal ((contribs.filter (fun p =>
          decide (((contribs.map (fun q => |q.2|)).sum) / contribs.length < |p.2|))).map
          (fun p => (p.1, round2 (|p.2| /
            (((contribs.filter (fun p =>
              decide (((contribs.map (fun q => |q.2|)).sum) / contribs.length < |p.2|))).map
              (fun p => |p.2|)).sum) * 100)))) := rfl
    have hperm := perm_sortDescByVal ((contribs.filter (fun p =>
        decide (((contribs.map (fun q => |q.2|)).sum) / contribs.length < |p.2|))).map
        (fun p => (p.1, round2 (|p.2| /
          (((contribs.filter (fun p =>
            decide (((contribs.map (fun q => |q.2|)).sum) / contribs.length < |p.2|))).map
            (fun p => |p.2|)).sum) * 100))))
    rw [heq] at *
    have hsum := ((hperm.map (fun p : String × ℚ => p.2))).sum_eq
    rw [hsum, List.map_map]
    have hsum100 : ((contribs.filter (fun p =>
        decide (((contribs.map (fun q => |q.2|)).sum) / contribs.length < |p.2|))).map
        (fun p => |p.2| /
          (((contribs.filter (fun p =>
            decide (((contribs.map (fun q => |q.2|)).sum) / contribs.length < |p.2|))).map
            (fun p => |p.2|)).sum) * 100)).sum = 100 := by
      apply sum_pct _ _ _ rfl
      apply ne_of_gt
      apply List.sum_pos
      · intro x hx
        rcases List.mem_map.mp hx with ⟨p, hpk, rfl⟩
        have hlt := of_decide_eq_true (List.mem_filter.mp hpk).2
        have hnn : 0 ≤ ((contribs.map (fun q => |q.2|)).sum) / contribs.length := by
          apply div_nonneg
          · apply List.sum_nonneg
            intro y hy
            rcases List.mem_map.mp hy with ⟨q, _, rfl⟩
            exact abs_nonneg _
          · positivity
        linarith
      · intro hnil
        rw [List.map_eq_nil_iff] at hnil
        exact (List.ne_nil_of_mem (List.mem_filter.mpr ⟨hp0, decide_eq_true hp0gt⟩)) hnil
    have hbound := abs_sum_sub_sum_le
      (contribs.filter (fun p =>
        decide (((contribs.map (fun q => |q.2|)).sum) / contribs.length < |p.2|)))
      (fun p => round2 (|p.2| /
        (((contribs.filter (fun p =>
          decide (((contribs.map (fun q => |q.2|)).sum) / contribs.length < |p.2|))).map
          (fun p => |p.2|)).sum) * 100))
      (fun p => |p.2| /
        (((contribs.filter (fun p =>
          decide (((contribs.map (fun q => |q.2|)).sum) / contribs.length < |p.2|))).map
          (fun p => |p.2|)).sum) * 100)
      (1/200) (fun x _ => round2_close _)
    rw [hsum100] at hbound
    simpa [Function.comp_def] using hbound

/-- Witness for the amended C7: contributions 4, 1, 1 — the mean absolute
contribution is 2, only the first feature is retained, and its percentage
is 100. -/
theorem employee_impact_factors_props_witness :
    (∃ p ∈ [("a", (4 : ℚ)), ("b", 1), ("c", 1)],
      (([("a", (4 : ℚ)), ("b", 1), ("c", 1)].map (fun q => |q.2|)).sum) /
        ([("a", (4 : ℚ)), ("b", 1), ("c", 1)] : List (String × ℚ)).length < |p.2|) ∧
    (∃ kept total,
      kept = [("a", (4 : ℚ)), ("b", 1), ("c", 1)].filter (fun p =>
        decide ((([("a", (4 : ℚ)), ("b", 1), ("c", 1)].map (fun q => |q.2|)).sum) /
          ([("a", (4 : ℚ)), ("b", 1), ("c", 1)] : List (String × ℚ)).length < |p.2|)) ∧
      total = (kept.map (fun p => |p.2|)).sum ∧
      employeeImpactFactors [("a", (4 : ℚ)), ("b", 1), ("c", 1)] =
        sortDescByVal (kept.map (fun p => (p.1, round2 (|p.2| / total * 100)))) ∧
      kept ≠ [] ∧ 0 < total ∧
      (kept.map (fun p => |p.2| / total * 100)).sum = 100 ∧
      List.Sorted valGE (employeeImpactFactors [("a", (4 : ℚ)), ("b", 1), ("c", 1)]) ∧
      |(((employeeImpactFactors [("a", (4 : ℚ)), ("b", 1), ("c", 1)]).map
          (fun p => p.2)).sum) - 100| ≤ kept.length * (1/200)) := by
  have hex : ∃ p ∈ [("a", (4 : ℚ)), ("b", 1), ("c", 1)],
      (([("a", (4 : ℚ)), ("b", 1), ("c", 1)].map (fun q => |q.2|)).sum) /
        ([("a", (4 : ℚ)), ("b", 1), ("c", 1)] : List (String × ℚ)).length < |p.2| := by
    refine ⟨("a", 4), by simp, ?_⟩
    norm_num [abs]
  exact ⟨hex, employee_impact_factors_props [("a", (4 : ℚ)), ("b", 1), ("c", 1)] hex⟩

/-! ## Inference schema (`model.py`, `predict_result`, claim C8) -/

/-- A tabular snapshot: named columns and numeric rows. -/
structure Frame where
  cols : List String
  rows : List (List ℚ)

/-- The observable values of one column: `none` when the column is absent
from the frame. -/
def Frame.colVals (fr : Frame) (c : String) : Option (List ℚ) :=
  if fr.cols.contains c then
    some (fr.rows.map (fun r => r.getD (fr.cols.indexOf c) 0))
  else none

/-- `feature_engineered_df[model_config['features']]` (`model.py` line 217):
pandas raises a `KeyError` naming a missing column when any requested column
is absent; otherwise every row is reindexed to the feature order, dropping —
i.e. ignoring — all other columns. -/
def selectCols (fr : Frame) (features : List String) : Except String (List (List ℚ)) :=
  match features.find? (fun f => ! fr.cols.contains f) with
  | some f => .error f
  | none => .ok (fr.rows.map (fun r => features.map (fun f => r.getD (fr.cols.indexOf f) 0)))

/-- `np.clip(y_prob, 0, 1)` on one probability (line 218). -/
def clip01 (q : ℚ) : ℚ := max 0 (min q 1)

/-- The core of `predict_result` (`model.py` lines 210-218 and 235-237)
applied to the latest snapshot: select exactly the persisted feature columns
(a missing one is the hard error, aborting with zero predictions), predict
with the opaque regressor `predictFn`, clip to [0,1], and classify by the
strict comparison with the persisted threshold. -/
def predict_result (predictFn : List ℚ → ℚ) (features : List String) (thr : ℚ)
    (fr : Frame) : Except String (List (ℚ × Bool)) :=
  match selectCols fr features with
  | .error e => .error e
  | .ok rows => .ok (rows.map (fun r =>
      (clip01 (predictFn r), decide (thr < clip01 (predictFn r)))))

lemma find?_congr {α : Type} (l : List α) (p q : α → Bool)
    (h : ∀ x ∈ l, p x = q x) : l.find? p = l.find? q := by
  induction l with
  | nil => rfl
  | cons a l ih =>
    rw [List.find?_cons, List.find?_cons, h a (by simp)]
    rcases q a with _ | _
    · exact ih (fun x hx => h x (by simp [hx]))
    · rfl

lemma selectCols_congr (features : List String) (fr fr' : Frame)
    (hlen : fr.rows.length = fr'.rows.length)
    (hcols : ∀ f ∈ features, fr.colVals f = fr'.colVals f) :
    selectCols fr features = selectCols fr' features := by
  have hcont : ∀ f ∈ features, fr.cols.contains f = fr'.cols.contains f := by
    intro f hf
    have := hcols f hf
    unfold Frame.colVals at this
    by_cases h1 : fr.cols.contains f = true
    · by_cases h2 : fr'.cols.contains f = true
      · rw [h1, h2]
      · rw [if_pos h1, if_neg h2] at this
        exact absurd this (by simp)
    · by_cases h2 : fr'.cols.contains f = true
      · rw [if_neg h1, if_pos h2] at this
        exact absurd this (by simp)
      · rw [Bool.not_eq_true] at h1 h2
        rw [h1, h2]
  have hfind : features.find? (fun f => ! fr.cols.contains f) =
      features.find? (fun f => ! fr'.cols.contains f) :=
    find?_congr _ _ _ (fun f hf => by rw [hcont f hf])
  unfold selectCols
  rw [← hfind]
  rcases hcase : features.find? (fun f => ! fr.cols.contains f) with _ | f
  · have hall : ∀ f ∈ features, fr.cols.contains f = true := by
      intro f hf
      have := List.find?_eq_none.mp hcase f hf
      simpa using this
    simp only
    congr 1
    apply List.ext_getElem?
    intro i
    rw [List.getElem?_map, List.getElem?_map]
    by_cases hlt : i < fr.rows.length
    · have hlt' : i < fr'.rows.length := by omega
      rw [List.getElem?_eq_getElem hlt, List.getElem?_eq_getElem hlt']
      simp only [Option.map_some']
      congr 1
      apply List.map_congr_left
      intro f hf
      have hv := hcols f hf
      unfold Frame.colVals at hv
      rw [if_pos (hall f hf), if_pos ((hcont f hf) ▸ hall f hf)] at hv
      have hv' := Option.some.inj hv
      have h2 := congrArg (fun l : List ℚ => l[i]?) hv'
      simp only [List.getElem?_map] at h2
      rw [List.getElem?_eq_getElem hlt, List.getElem?_eq_getElem hlt'] at h2
      simp only [Option.map_some'] at h2
      exact Option.some.inj h2
    · have hge : fr.rows.length ≤ i := by omega
      have hge' : fr'.rows.length ≤ i := by omega
      rw [List.getElem?_eq_none hge, List.getElem?_eq_none hge']
      rfl
  · rfl

/-- C8: if any feature column listed in the persisted model configuration is
missing from the snapshot, prediction aborts with an error naming a missing
column and yields zero predictions (an `Except.error` carries no partial
prediction list); and the outcome depends only on the feature columns, so any
extra columns in the snapshot are ignored. -/
theorem predict_schema_mismatch (predictFn : List ℚ → ℚ) (features : List String)
    (thr : ℚ) (fr fr' : Frame) :
    ((∃ f ∈ features, fr.colVals f = none) →
      ∃ e, predict_result predictFn features thr fr = .error e) ∧
    (fr.rows.length = fr'.rows.length →
      (∀ f ∈ features, fr.colVals f = fr'.colVals f) →
      predict_result predictFn features thr fr =
        predict_result predictFn features thr fr') := by
  constructor
  · intro ⟨f, hf, hnone⟩
    have hncont : fr.cols.contains f = false := by
      unfold Frame.colVals at hnone
      by_cases h : fr.cols.contains f = true
      · rw [if_pos h] at hnone
        exact absurd hnone (by simp)
      · simpa using h
    have : (features.find? (fun f => ! fr.cols.contains f)).isSome :=
      List.find?_isSome.mpr ⟨f, hf, by rw [hncont]; rfl⟩
    rcases hcase : features.find? (fun f => ! fr.cols.contains f) with _ | f0
    · rw [hcase] at this
      exact absurd this (by simp)
    · refine ⟨f0, ?_⟩
      unfold predict_result selectCols
      rw [hcase]
  · intro hlen hcols
    unfold predict_result
    rw [selectCols_congr features fr fr' hlen hcols]

/-- Witness for C8: the model requires columns "x" and "y"; a snapshot
missing "y" errors out, and a snapshot extended with an extra column "z"
placed after the feature columns gives the same result as one without it. -/
theorem predict_schema_mismatch_witness :
    ((∃ f ∈ ["x", "y"],
        (Frame.mk ["x"] [[1]]).colVals f = none) ∧
      ∃ e, predict_result (fun _ => 0) ["x", "y"] 0 (Frame.mk ["x"] [[1]]) = .error e) ∧
    ((Frame.mk ["x", "y"] [[1, 2]]).rows.length =
        (Frame.mk ["x", "y", "z"] [[1, 2, 99]]).rows.length ∧
      (∀ f ∈ ["x", "y"], (Frame.mk ["x", "y"] [[1, 2]]).colVals f =
        (Frame.mk ["x", "y", "z"] [[1, 2, 99]]).colVals f) ∧
      predict_result (fun r => r.getD 0 0) ["x", "y"] 0 (Frame.mk ["x", "y"] [[1, 2]]) =
        predict_result (fun r => r.getD 0 0) ["x", "y"] 0
          (Frame.mk ["x", "y", "z"] [[1, 2, 99]])) := by
  have hmiss : ∃ f ∈ ["x", "y"], (Frame.mk ["x"] [[1]]).colVals f = none := by
    refine ⟨"y", by simp, ?_⟩
    unfold Frame.colVals
    rw [if_neg]
    simp [List.contains]
  have hlen : (Frame.mk ["x", "y"] [[(1 : ℚ), 2]]).rows.length =
      (Frame.mk ["x", "y", "z"] [[(1 : ℚ), 2, 99]]).rows.length := rfl
  have hcols : ∀ f ∈ ["x", "y"], (Frame.mk ["x", "y"] [[(1 : ℚ), 2]]).colVals f =
      (Frame.mk ["x", "y", "z"] [[(1 : ℚ), 2, 99]]).colVals f := by
    intro f hf
    simp only [List.mem_cons, List.not_mem_nil, or_false] at hf
    rcases hf with rfl | rfl <;> rfl
  exact ⟨⟨hmiss, (predict_schema_mismatch (fun _ => 0) ["x", "y"] 0
      (Frame.mk ["x"] [[1]]) (Frame.mk ["x"] [[1]])).1 hmiss⟩,
    hlen, hcols, (predict_schema_mismatch (fun r => r.getD 0 0) ["x", "y"] 0
      (Frame.mk ["x", "y"] [[1, 2]]) (Frame.mk ["x", "y", "z"] [[1, 2, 99]])).2 hlen hcols⟩

/-! ## The SHAP attribution loop (`model.py` lines 228-233, claim C9) -/

/-- The per-employee explainer loop of `predict_result`: each employee's
SHAP explanation is computed in order and stored in the interpretation map.
The loop body contains no exception handling, so an explainer error
propagates immediately, aborting the whole function. -/
def computeInterpretations {α : Type} (explain : ℕ → Except String α) :
    List ℕ → Except String (List (ℕ × α))
  | [] => .ok []
  | e :: rest =>
    match explain e with
    | .error err => .error err
    | .ok v =>
      match computeInterpretations explain rest with
      | .error err => .error err
      | .ok tail => .ok ((e, v) :: tail)

lemma computeInterpretations_cons {α : Type} (explain : ℕ → Except String α)
    (e : ℕ) (rest : List ℕ) :
    computeInterpretations explain (e :: rest) =
      match explain e with
      | .error err => .error err
      | .ok v =>
        match computeInterpretations explain rest with
        | .error err => .error err
        | .ok tail => .ok ((e, v) :: tail) := rfl

/-- C9 counterexample: with two employees where the explainer fails on the
second, the whole interpretation pass returns the error — the first
employee's already-computed explanation is discarded, the failing employee is
not "recorded as having no explanation", processing does not continue, and no
partial-failure count exists anywhere in the output. -/
theorem attribution_failure_counterexample :
    computeInterpretations
      (fun i => if i = 0 then .error "explainer failed" else .ok (0 : ℚ)) [1, 0] =
      .error "explainer failed" ∧
    computeInterpretations
      (fun i => if i = 0 then .error "explainer failed" else .ok (0 : ℚ)) [0, 1] =
      .error "explainer failed" := ⟨rfl, rfl⟩

/-- C9 (amended): an explainer failure on any single employee aborts the
entire batch: whenever the employees before the failing one all succeed, the
interpretation pass returns that employee's error, producing no interpretation
map at all — no skip-and-continue and no aggregate partial-failure count. -/
theorem attribution_failure_aborts {α : Type} (explain : ℕ → Except String α)
    (pre post : List ℕ) (emp : ℕ) (err : String)
    (hfail : explain emp = .error err)
    (hok : ∀ x ∈ pre, ∃ v, explain x = .ok v) :
    computeInterpretations explain (pre ++ emp :: post) = .error err := by
  induction pre with
  | nil =>
    rw [List.nil_append, computeInterpretations_cons, hfail]
  | cons x pre ih =>
    obtain ⟨v, hv⟩ := hok x (by simp)
    have htail := ih (fun y hy => hok y (by simp [hy]))
    rw [List.cons_append, computeInterpretations_cons, hv, htail]

/-- Witness for the amended C9 at a concrete failing input. -/
theorem attribution_failure_aborts_witness :
    ((fun i => if i = 0 then Except.error "explainer failed" else Except.ok (0 : ℚ)) 0 =
      .error "explainer failed" ∧
      (∀ x ∈ [1],
        ∃ v, (fun i => if i = 0 then Except.error "explainer failed"
          else Except.ok (0 : ℚ)) x = .ok v)) ∧
    computeInterpretations
      (fun i => if i = 0 then .error "explainer failed" else .ok (0 : ℚ))
      ([1] ++ 0 :: [2]) = .error "explainer failed" := by
  have hok : ∀ x ∈ [1],
      ∃ v, (fun i => if i = 0 then Except.error "explainer failed"
        else Except.ok (0 : ℚ)) x = .ok v := by
    intro x hx
    simp only [List.mem_singleton] at hx
    subst hx
    exact ⟨0, rfl⟩
  exact ⟨⟨rfl, hok⟩,
    attribution_failure_aborts
      (fun i => if i = 0 then .error "explainer failed" else .ok (0 : ℚ))
      [1] [2] 0 "explainer failed" rfl hok⟩

end ThaiTalent
